import Mathlib

/-!
Verification of the VIP/VIPTR encoder and CTC recognition head (doctr).

Shallow embedding of the numerical core:
* tensor windowing (`img2windows` / `windows2img`) as index functions;
* shape semantics of convolutions, patch merging, and the encoder pipeline;
* CTC best-path decoding and confidence computation;
* ground-truth encoding (`build_target`), the recognition `forward` control
  flow, and the CTC loss with `zero_infinity`.

Tensors whose values matter are embedded as index functions `ℕ → ... → ℤ`
(or lists over a linear ordered field); tensors whose claims are only about
shapes are embedded at the shape level.
-/

namespace DocTR

/-! ## Windowing utilities

`img2windows` / `windows2img` from
`src/doctr/models/classification/vip/layers/pytorch.py` (lines 406-440) and
`src/doctr/models/classification/vip/pytorch.py` (lines 437-455).

A `(b, c, h, w)` tensor is embedded as an index function `ℕ → ℕ → ℕ → ℕ → ℤ`;
`view`/`permute`/`reshape` become the corresponding index arithmetic
(row-major layout, exact divisibility assumed by the source). -/

/-- `img2windows(img, h_sp, w_sp)`:
`img.view(b, c, h//h_sp, h_sp, w//w_sp, w_sp).permute(0,2,4,3,5,1).reshape(-1, h_sp*w_sp, c)`.
Input is a `(b, c, h, w)` index function, output a `(b', h_sp*w_sp, c)` index
function with `b' = b * (h/h_sp) * (w/w_sp)`. -/
def img2windows (H W hsp wsp : ℕ) (img : ℕ → ℕ → ℕ → ℕ → ℤ) : ℕ → ℕ → ℕ → ℤ :=
  let nH := H / hsp
  let nW := W / wsp
  -- img.view(b, c, h // h_sp, h_sp, w // w_sp, w_sp)
  let img_reshape : ℕ → ℕ → ℕ → ℕ → ℕ → ℕ → ℤ := fun b c hi hs wi ws =>
    img b c (hi * hsp + hs) (wi * wsp + ws)
  -- .permute(0, 2, 4, 3, 5, 1).reshape(-1, h_sp * w_sp, c):
  -- flat window index bw = (b * nH + hi) * nW + wi, flat token index t = hs * wsp + ws
  fun bw t c =>
    img_reshape (bw / (nH * nW)) c ((bw / nW) % nH) (t / wsp) (bw % nW) (t % wsp)

/-- Batch size reconstructed by `windows2img` (source line 437 of the layers
file): `int(img_splits_hw.shape[0] / (h * w / h_sp / w_sp))`. -/
def windows2imgBatch (B' H W hsp wsp : ℕ) : ℕ :=
  B' / (H * W / hsp / wsp)

/-- `windows2img(img_splits_hw, h_sp, w_sp, h, w)`:
`x.view(b, h//h_sp, w//w_sp, h_sp, w_sp, -1).permute(0,1,3,2,4,5).view(b, h, w, -1)`.
Input is a `(b', h_sp*w_sp, c)` index function, output a `(b, h, w, c)`
(channel-last) index function. -/
def windows2img (H W hsp wsp : ℕ) (splits : ℕ → ℕ → ℕ → ℤ) : ℕ → ℕ → ℕ → ℕ → ℤ :=
  let nH := H / hsp
  let nW := W / wsp
  -- .view(b, h // h_sp, w // w_sp, h_sp, w_sp, -1)
  let img6 : ℕ → ℕ → ℕ → ℕ → ℕ → ℕ → ℤ := fun b hi wi hs ws c =>
    splits ((b * nH + hi) * nW + wi) (hs * wsp + ws) c
  -- .permute(0, 1, 3, 2, 4, 5).view(b, h, w, -1)
  fun b h w c => img6 b (h / hsp) (w / wsp) (h % hsp) (w % wsp) c

/-! ## Cross-shaped window attention: strip geometry

`LePEAttention._get_split` (layers file, lines 442-460) and the `attns`
construction in `CrossShapedWindowAttention.__init__` (lines 577-587). -/

namespace LePEAttention

/-- `LePEAttention._get_split(size)`: window geometry `(h_sp, w_sp)` chosen from
the mixer's `idx`; `none` models the `ValueError` raised for other indices. -/
def getSplit (idx : ℤ) (split_size : ℕ) (size : ℕ × ℕ) : Option (ℕ × ℕ) :=
  let (h, w) := size
  if idx = -1 then some (h, w)
  else if idx = 0 then some (h, split_size)
  else if idx = 1 then some (split_size, w)
  else none

end LePEAttention

namespace CrossShapedWindowAttention

/-- Per-branch configuration of the two `LePEAttention` mixers built in
`CrossShapedWindowAttention.__init__`: branch `i ∈ {0, 1}` gets `idx = i` and
half the channels (`dim // 2`). -/
structure AttnCfg where
  dim : ℕ
  idx : ℤ
  split_size : ℕ
  num_heads : ℕ

/-- The `attns` module list (layers file, lines 577-587): for `i in range(2)`,
`LePEAttention(dim // 2, idx=i, split_size=split_size, num_heads=num_heads // 2)`. -/
def attns (dim num_heads split_size : ℕ) (i : Fin 2) : AttnCfg :=
  ⟨dim / 2, (i : ℤ), split_size, num_heads / 2⟩

end CrossShapedWindowAttention

/-! ## Shape semantics of the encoder pipeline

Shape-level embedding of `PatchMerging`, `PatchEmbed`, `BasicLayer` and
`VIPTRNet.forward_features` from
`src/doctr/models/classification/vip/pytorch.py` (lines 244-268, 631-767)
and the layers file (lines 32-68, 330-360).  A shape is a tuple of dims. -/

/-- Output extent of `nn.Conv2d` along one spatial dimension:
`(n + 2*padding - kernel) / stride + 1` (floor division). -/
def conv2dOutDim (n kernel stride padding : ℕ) : ℕ :=
  (n + 2 * padding - kernel) / stride + 1

namespace PatchMerging

/-- Shape of `PatchMerging.forward` on a `(b, h, w, c)` input:
permute to `(b, c, h, w)`, `Conv2d(dim, out_dim, 3, (2, 1), 1)`, permute back,
`LayerNorm(out_dim)` (shape-preserving). -/
def outputShape (out_dim : ℕ) (s : ℕ × ℕ × ℕ × ℕ) : ℕ × ℕ × ℕ × ℕ :=
  let (b, h, w, _) := s
  (b, conv2dOutDim h 3 2 1, conv2dOutDim w 3 1 1, out_dim)

end PatchMerging

namespace PatchEmbed

/-- Shape of `PatchEmbed.forward` on a `(b, c, h, w)` input: two stride-2,
kernel-3, padding-1 convolutions (`in -> embed_dim/2 -> embed_dim`), then
permute to channel-last `(b, h', w', embed_dim)`. -/
def outputShape (embed_dim b h w : ℕ) : ℕ × ℕ × ℕ × ℕ :=
  (b, conv2dOutDim (conv2dOutDim h 3 2 1) 3 2 1,
    conv2dOutDim (conv2dOutDim w 3 2 1) 3 2 1, embed_dim)

end PatchEmbed

namespace VIPTRNet

/-- Shape of `BasicLayer.forward`: all three mixer types (`Local1`, `LG1`,
`Global2`) flatten to tokens and reshape back to `(b, h, w, d)`, so the mixing
blocks preserve the shape; the optional `PatchMerging` downsample is applied at
the end. -/
def basicLayerShape (downOut : Option ℕ) (s : ℕ × ℕ × ℕ × ℕ) : ℕ × ℕ × ℕ × ℕ :=
  match downOut with
  | some od => PatchMerging.outputShape od s
  | none => s

/-- The stacked stages of `VIPTRNet.__init__` (lines 702-729): stage `i` gets a
`PatchMerging` downsample exactly when `i ∈ [0, 1]`, with output channels
`embed_dims[i + 1]`. -/
def stagesShape (embed_dims : List ℕ) (s : ℕ × ℕ × ℕ × ℕ) : ℕ × ℕ × ℕ × ℕ :=
  (List.range embed_dims.length).foldl
    (fun s i =>
      basicLayerShape
        (if i = 0 ∨ i = 1 then some (embed_dims.getD (i + 1) 0) else none) s)
    s

/-- Shape of `VIPTRNet.forward_features` (lines 750-763) on a `(b, 3, h, w)`
input: patch embedding, the stages, `LayerNorm` (shape-preserving), permute to
`(b, w', c', h')`, `AdaptiveAvgPool2d((embed_dims[-1], 1))` on the two trailing
dims, `squeeze(3)`, and the `mlp_head` linear projection to `out_dim`. -/
def forwardFeaturesShape (embed_dims : List ℕ) (out_dim b h w : ℕ) : ℕ × ℕ × ℕ :=
  let s0 := PatchEmbed.outputShape (embed_dims.headD 0) b h w
  let s1 := stagesShape embed_dims s0
  let (b', h', w', _) := s1
  -- x.permute(0, 2, 3, 1): (b', w', c', h'); pooling -> (b', w', embed_dims[-1], 1)
  let pooled : ℕ × ℕ × ℕ × ℕ := (b', w', embed_dims.getD (embed_dims.length - 1) 0, 1)
  -- x.squeeze(3); mlp_head: Linear(embed_dims[-1], out_dim)
  let _ := h'
  (pooled.1, pooled.2.1, out_dim)

end VIPTRNet

/-! ## CTC best-path decoding

`VIPTRPostProcessor.ctc_best_path` from
`src/doctr/models/recognition/viptr/pytorch.py` (lines 45-69) and
`src/doctr/models/recognition/vip/pytorch.py` (lines 22-46).

A `(B, T, C)` logits tensor is embedded as `List (List (List α))` over a linear
ordered field; the exponential of `F.softmax` is abstracted as a parameter
`expf` (instantiate `expf := Real.exp` for the source semantics). -/

/-- `torch.argmax` over one row (the class dim): index of the first maximal
element; `none` models the error torch raises on an empty reduction dim. -/
def argmaxIdx {α : Type*} [LinearOrder α] (l : List α) : Option ℕ :=
  l.max?.bind fun m => l.findIdx? (fun x => x = m)

/-- Keys of `itertools.groupby`: collapse each run of consecutive equal
elements to a single element. -/
def groupbyKeys {α : Type*} [DecidableEq α] : List α → List α
  | [] => []
  | [a] => [a]
  | a :: b :: rest =>
    if a = b then groupbyKeys (b :: rest) else a :: groupbyKeys (b :: rest)

/-- Modelled from the spec: `decode_sequence` (in `doctr.datasets`, not under
`src/`) maps each remaining index back to the vocabulary character at that
position ("map remaining indices back to vocabulary characters"), failing on
out-of-range indices. -/
def decode_sequence (seq : List ℤ) (vocab : List Char) : Option (List Char) :=
  seq.mapM fun i => if i < 0 then none else vocab[i.toNat]?

/-- `F.softmax(logits, dim=-1)` on one row. -/
def softmaxRow {α : Type*} [LinearOrderedField α] (expf : α → α) (row : List α) : List α :=
  row.map fun x => expf x / (row.map expf).sum

/-- `F.softmax(logits, dim=-1).max(dim=-1).values.min(dim=1).values`
(the per-sample confidences, source line 63); `none` models the error torch
raises on an empty reduction dim. -/
def ctcConfidences {α : Type} [LinearOrderedField α] (expf : α → α)
    (logits : List (List (List α))) : Option (List α) :=
  logits.mapM fun mat =>
    (mat.mapM fun row => (softmaxRow expf row).max?).bind List.min?

/-- `torch.argmax(logits, dim=-1)` (source line 64). -/
def predsIndices {α : Type} [LinearOrder α] (logits : List (List (List α))) :
    Option (List (List ℕ)) :=
  logits.mapM fun mat => mat.mapM argmaxIdx

/-- `VIPTRPostProcessor.ctc_best_path` of the `viptr` module (lines 45-69):
best-path decoding where predicted class `k` is decoded as `vocab[k - 1]`
(`[k - 1 for k, _ in groupby(seq.tolist()) if k != blank]`), zipped with the
per-sample confidences. -/
def ctc_best_path_viptr {α : Type} [LinearOrderedField α] (expf : α → α)
    (logits : List (List (List α))) (vocab : List Char) (blank : ℕ) :
    Option (List (List Char × α)) := do
  let probs ← ctcConfidences expf logits
  let preds ← predsIndices logits
  let words ← preds.mapM fun seq =>
    decode_sequence (((groupbyKeys seq).filter fun k => k ≠ blank).map
      fun k => Int.ofNat k - 1) vocab
  return words.zip probs

/-- `VIPTRPostProcessor.ctc_best_path` of the `vip` module (lines 22-46): same
decoding but predicted class `k` is decoded as `vocab[k]`
(`[k for k, _ in groupby(seq.tolist()) if k != blank]`). -/
def ctc_best_path_vip {α : Type} [LinearOrderedField α] (expf : α → α)
    (logits : List (List (List α))) (vocab : List Char) (blank : ℕ) :
    Option (List (List Char × α)) := do
  let probs ← ctcConfidences expf logits
  let preds ← predsIndices logits
  let words ← preds.mapM fun seq =>
    decode_sequence (((groupbyKeys seq).filter fun k => k ≠ blank).map
      fun k => Int.ofNat k) vocab
  return words.zip probs

/-! ### Auxiliary lemmas: `Option`-valued `mapM` and list extrema -/

/-! ### Confidence = min over time-steps of max softmax probability (C6) -/

/-- Spec-side formulation of the per-sample confidence: the minimum, over the
time-steps, of the maximum softmax probability at that time-step. -/
def minMaxSoftmax {α : Type} [LinearOrderedField α] (expf : α → α) {T C : ℕ}
    (hT : 0 < T) (hC : 0 < C) (g : Fin T → Fin C → α) : α :=
  Finset.univ.inf' (Finset.univ_nonempty_iff.mpr ⟨⟨0, hT⟩⟩) fun t =>
    Finset.univ.sup' (Finset.univ_nonempty_iff.mpr ⟨⟨0, hC⟩⟩) fun c =>
      expf (g t c) / ∑ j, expf (g t j)

/-! ## Ground-truth encoding: `_VIPTR.build_target`

`src/doctr/models/recognition/vip/base.py`, lines 17-35. -/

/-- One row of the encoded target array:
`encoded[i][:len(seq)] = [self.vocab.index(x) + 1 for x in seq]` written onto a
row of `max_length` zeros.  `none` models the `ValueError` of `str.index` when
a character is missing from the vocabulary, and the numpy broadcast error when
the word is longer than `max_length`. -/
def encodeWord (vocab : List Char) (max_length : ℕ) (seq : List Char) :
    Option (List ℕ) := do
  let idxs ← seq.mapM fun x => (vocab.indexOf? x).map (· + 1)
  if seq.length ≤ max_length then
    return idxs ++ List.replicate (max_length - seq.length) 0
  else none

/-- `_VIPTR.build_target(gts)`: the `(len(gts), max_length)` encoded array
(`np.zeros` overwritten per row) and the list of per-string lengths
`[len(word) for word in gts]`. -/
def build_target (vocab : List Char) (max_length : ℕ) (gts : List (List Char)) :
    Option (List (List ℕ) × List ℕ) := do
  let encoded ← gts.mapM (encodeWord vocab max_length)
  return (encoded, gts.map List.length)

/-! ## Recognition `forward` control flow

`VIPTR.forward` from `src/doctr/models/recognition/viptr/pytorch.py`
(lines 133-187); the `vip` variant (lines 111-175) has the same control flow
for the claims below.  The backbone-plus-head evaluation
(`self.feat_extractor(x)`, truncation, `self.head`, `_bf16_to_float32`,
lines 152-157) is abstracted as a fallible first step `featHead`: as in the
source it runs before the missing-targets check (lines 159-160) and can itself
raise (e.g. a shape error).  Postprocessing and loss stay opaque functions;
the embedding captures the evaluation order and the branching on `training`,
`target`, `exportable`, `return_model_output` and `return_preds`. -/

/-- The dictionary returned by `VIPTR.forward`: each optional key of `out`. -/
structure VIPTROutput (α β γ : Type*) where
  logits : Option α := none
  out_map : Option α := none
  preds : Option β := none
  loss : Option γ := none

/-- `VIPTR.forward`: first evaluates the backbone and head (`featHead`, source
lines 152-157) — a failure there propagates; only then checks
`self.training and target is None` and raises the usage error (lines 159-160);
when `exportable`, returns only the `logits` key (lines 162-165); otherwise
fills `out_map`, `preds` and `loss` according to the flags and the presence of
targets (lines 167-187). -/
def VIPTR.forward {α β γ : Type*} (training exportable return_model_output return_preds : Bool)
    (target : Option (List (List Char))) (featHead : Except String α)
    (postprocess : α → β) (lossOf : α → List (List Char) → γ) :
    Except String (VIPTROutput α β γ) :=
  -- features = self.feat_extractor(x); logits = self.head(...); _bf16_to_float32
  match featHead with
  | .error e => .error e
  | .ok decoded_features =>
    if training = true ∧ target = none then
      .error "Need to provide labels during training."
    else if exportable then
      .ok { logits := some decoded_features }
    else
      let out0 : VIPTROutput α β γ :=
        { out_map := if return_model_output then some decoded_features else none }
      let out1 : VIPTROutput α β γ :=
        { out0 with
          preds := if target = none ∨ return_preds then some (postprocess decoded_features)
            else none }
      match target with
      | some t => .ok { out1 with loss := some (lossOf decoded_features t) }
      | none => .ok out1

/-! ## CTC loss (`compute_loss`)

`VIPTR.compute_loss` from `src/doctr/models/recognition/viptr/pytorch.py`
(lines 189-211) and `src/doctr/models/recognition/vip/pytorch.py`
(lines 177-198): `input_length = model_output.shape[1] * torch.ones(batch)`,
log-softmax over the class dim, then `F.ctc_loss(..., zero_infinity=True)`.

`F.ctc_loss` is torch library code; it is modelled from its documented
semantics: the per-sample loss is `-log` of the total probability (under the
per-step softmax distributions) of all alignment paths that collapse
(deduplicate consecutive repeats, then drop blanks) to the target, divided by
the target length (the default "mean" reduction), with infinite losses — zero
path probability — zeroed by `zero_infinity=True`. -/

/-- Softmax probability of class `c` at one time-step (the exponential of the
`log_softmax` the source feeds to `F.ctc_loss`). -/
noncomputable def softmaxP {C : ℕ} (row : Fin C → ℝ) (c : Fin C) : ℝ :=
  Real.exp (row c) / ∑ j, Real.exp (row j)

/-- CTC collapse: deduplicate consecutive repeats, then drop blanks. -/
def ctcCollapse (blank : ℕ) (l : List ℕ) : List ℕ :=
  (groupbyKeys l).filter fun k => k ≠ blank

/-- Total probability of the alignment paths `π : Fin T → Fin C` that collapse
to the target. -/
noncomputable def pathProb (T C : ℕ) (logits : Fin T → Fin C → ℝ)
    (blank : ℕ) (target : List ℕ) : ℝ :=
  ∑ π ∈ Finset.univ.filter
      (fun π : Fin T → Fin C =>
        ctcCollapse blank (List.ofFn fun t => ((π t : Fin C) : ℕ)) = target),
    ∏ t, softmaxP (logits t) (π t)

/-- Per-sample CTC loss with `zero_infinity=True`: `-log` of the path
probability divided by the target length; a zero path probability (which torch
reports as an infinite loss) contributes zero instead. -/
noncomputable def ctcSampleLoss (T C : ℕ) (logits : Fin T → Fin C → ℝ)
    (blank : ℕ) (target : List ℕ) (tlen : ℕ) : ℝ :=
  if pathProb T C logits blank target = 0 then 0
  else -Real.log (pathProb T C logits blank target) / tlen

/-- `input_length = model_output.shape[1] * torch.ones(size=(batch_len,))`
(source line 207): the full number of output time-steps, for every sample. -/
def inputLengths (B T : ℕ) : Fin B → ℕ := fun _ => T

/-- `VIPTR.compute_loss`: mean-reduced CTC loss over the batch (each target as
read up to its `seq_len`), blank class 0, `zero_infinity=True`. -/
noncomputable def compute_loss (B T C : ℕ) (model_output : Fin B → Fin T → Fin C → ℝ)
    (gt : Fin B → List ℕ) (seq_len : Fin B → ℕ) : ℝ :=
  (∑ b, ctcSampleLoss T C (model_output b) 0 ((gt b).take (seq_len b)) (seq_len b)) / B

/-! ## Theorems -/

/-- **C1.** Window partition/merge round-trip: for a feature map whose height is
divisible by the window height and whose width is divisible by the window width,
`windows2img (img2windows x h_sp w_sp) h_sp w_sp H W` exactly reconstructs the
original feature map: the merged batch size equals the original batch size, and
every entry of the merged `(b, h, w, c)` tensor equals the corresponding entry
of the original `(b, c, h, w)` tensor. -/
theorem img2windows_windows2img_roundtrip
    (H W hsp wsp : ℕ) (hhd : hsp ∣ H) (hwd : wsp ∣ W) (hhp : 0 < hsp) (hwp : 0 < wsp)
    (img : ℕ → ℕ → ℕ → ℕ → ℤ) (B b h w c : ℕ) (hh : h < H) (hw : w < W) :
    windows2imgBatch (B * (H / hsp) * (W / wsp)) H W hsp wsp = B ∧
    windows2img H W hsp wsp (img2windows H W hsp wsp img) b h w c = img b c h w := by
  obtain ⟨nh, rfl⟩ := hhd
  obtain ⟨nw, rfl⟩ := hwd
  have hnh : 0 < nh := by
    rcases Nat.eq_zero_or_pos nh with h0 | h0
    · subst h0; simp at hh
    · exact h0
  have hnw : 0 < nw := by
    rcases Nat.eq_zero_or_pos nw with h0 | h0
    · subst h0; simp at hw
    · exact h0
  have ehs : hsp * nh / hsp = nh := Nat.mul_div_cancel_left nh hhp
  have ews : wsp * nw / wsp = nw := Nat.mul_div_cancel_left nw hwp
  have hx : h / hsp < nh := by
    have := Nat.div_lt_div_of_lt_of_dvd (Dvd.intro nh rfl) hh
    rwa [ehs] at this
  have hy : w / wsp < nw := by
    have := Nat.div_lt_div_of_lt_of_dvd (Dvd.intro nw rfl) hw
    rwa [ews] at this
  have ed : hsp * nh * (wsp * nw) / hsp / wsp = nh * nw := by
    rw [show hsp * nh * (wsp * nw) = hsp * (nh * (wsp * nw)) from by ring,
      Nat.mul_div_cancel_left _ hhp,
      show nh * (wsp * nw) = wsp * (nh * nw) from by ring,
      Nat.mul_div_cancel_left _ hwp]
  constructor
  · -- batch-size recovery
    show B * (hsp * nh / hsp) * (wsp * nw / wsp) / (hsp * nh * (wsp * nw) / hsp / wsp) = B
    rw [ehs, ews, ed, mul_assoc, Nat.mul_div_cancel _ (Nat.mul_pos hnh hnw)]
  · -- entrywise reconstruction
    show img2windows (hsp * nh) (wsp * nw) hsp wsp img
        ((b * (hsp * nh / hsp) + h / hsp) * (wsp * nw / wsp) + w / wsp)
        (h % hsp * wsp + w % wsp) c = img b c h w
    rw [ehs, ews]
    show img
        (((b * nh + h / hsp) * nw + w / wsp) / (hsp * nh / hsp * (wsp * nw / wsp)))
        c
        ((((b * nh + h / hsp) * nw + w / wsp) / (wsp * nw / wsp)) % (hsp * nh / hsp) * hsp
          + (h % hsp * wsp + w % wsp) / wsp)
        (((b * nh + h / hsp) * nw + w / wsp) % (wsp * nw / wsp) * wsp
          + (h % hsp * wsp + w % wsp) % wsp) = img b c h w
    rw [ehs, ews]
    have e1 : ((b * nh + h / hsp) * nw + w / wsp) % nw = w / wsp := by
      rw [mul_comm _ nw, Nat.mul_add_mod, Nat.mod_eq_of_lt hy]
    have e2 : ((b * nh + h / hsp) * nw + w / wsp) / nw = b * nh + h / hsp := by
      rw [mul_comm _ nw, Nat.mul_add_div hnw, Nat.div_eq_of_lt hy, add_zero]
    have e3 : ((b * nh + h / hsp) * nw + w / wsp) / (nh * nw) = b := by
      rw [mul_comm nh nw, ← Nat.div_div_eq_div_mul, e2, add_comm,
        Nat.add_mul_div_right _ _ hnh, Nat.div_eq_of_lt hx, zero_add]
    have e4 : (b * nh + h / hsp) % nh = h / hsp := by
      rw [add_comm, Nat.add_mul_mod_self_right, Nat.mod_eq_of_lt hx]
    have e5 : (h % hsp * wsp + w % wsp) / wsp = h % hsp := by
      rw [mul_comm _ wsp, Nat.mul_add_div hwp, Nat.div_eq_of_lt (Nat.mod_lt _ hwp), add_zero]
    have e6 : (h % hsp * wsp + w % wsp) % wsp = w % wsp := by
      rw [mul_comm _ wsp, Nat.mul_add_mod, Nat.mod_eq_of_lt (Nat.mod_lt _ hwp)]
    rw [e1, e2, e3, e4, e5, e6, Nat.div_add_mod', Nat.div_add_mod']

/-- **C1 witness.** Concrete round trip at `H = 4, W = 4, h_sp = w_sp = 2`. -/
theorem img2windows_windows2img_roundtrip_witness :
    windows2imgBatch (1 * (4 / 2) * (4 / 2)) 4 4 2 2 = 1 ∧
    windows2img 4 4 2 2
      (img2windows 4 4 2 2 (fun b c i j => (b : ℤ) + 2 * c + 3 * i + 17 * j)) 1 3 2 0
      = (fun b c i j => (b : ℤ) + 2 * c + 3 * i + 17 * j) 1 0 3 2 :=
  img2windows_windows2img_roundtrip 4 4 2 2 (by decide) (by decide) (by decide) (by decide)
    (fun b c i j => (b : ℤ) + 2 * c + 3 * i + 17 * j) 1 1 3 2 0 (by decide) (by decide)

/-- **C3 counterexample.** The claim states that the mixer with index 0 uses
windows of height `split_size` spanning the full width. On a `(h, w) = (4, 6)`
feature map with `split_size = 2`, `_get_split` for index 0 returns `(4, 2)`
(full-height windows of width 2), not the claimed `(2, 6)`. -/
theorem getSplit_idx0_counterexample :
    LePEAttention.getSplit (CrossShapedWindowAttention.attns 8 4 2 0).idx 2 (4, 6)
        = some (4, 2) ∧
      some ((4 : ℕ), (2 : ℕ)) ≠ some ((2 : ℕ), (6 : ℕ)) := by
  decide

/-- **C3 (amended).** In `CrossShapedWindowAttention`, channels are split into
two halves (`dim // 2` per branch) and two LePE mixers are applied: the mixer
constructed with index 0 performs vertical strip attention (windows of width
`split_size` spanning the full height) and the mixer with index 1 performs
horizontal strip attention (windows of height `split_size` spanning the full
width). -/
theorem attns_strip_geometry (dim num_heads split_size h w : ℕ) :
    (CrossShapedWindowAttention.attns dim num_heads split_size 0).dim = dim / 2 ∧
    (CrossShapedWindowAttention.attns dim num_heads split_size 1).dim = dim / 2 ∧
    LePEAttention.getSplit (CrossShapedWindowAttention.attns dim num_heads split_size 0).idx
        split_size (h, w) = some (h, split_size) ∧
    LePEAttention.getSplit (CrossShapedWindowAttention.attns dim num_heads split_size 1).idx
        split_size (h, w) = some (split_size, w) := by
  refine ⟨rfl, rfl, ?_, ?_⟩ <;> simp [LePEAttention.getSplit, CrossShapedWindowAttention.attns]

/-- **C5.** For every input feature map of shape `(b, h, w, c)` with even,
positive height and positive width, the patch-merging downsample produces an
output of shape `(b, h/2, w, out_dim)`: the stride-(2,1) convolution halves the
height and preserves the width (the trailing layer normalization preserves the
shape). -/
theorem patchMerging_halves_height (b h w c out_dim : ℕ)
    (hh2 : 2 ∣ h) (hh0 : 0 < h) (hw0 : 0 < w) :
    PatchMerging.outputShape out_dim (b, h, w, c) = (b, h / 2, w, out_dim) := by
  simp only [PatchMerging.outputShape, conv2dOutDim, Prod.mk.injEq, true_and, and_true]
  omega

/-- **C5 witness.** Concrete instance at `(b, h, w, c) = (2, 4, 5, 7)`. -/
theorem patchMerging_halves_height_witness :
    PatchMerging.outputShape 9 (2, 4, 5, 7) = (2, 4 / 2, 5, 9) :=
  patchMerging_halves_height 2 4 5 7 9 (by decide) (by decide) (by decide)

/-- **C4.** For every batch size and every `(b, 3, h, w)` input with `h` and `w`
divisible by the required downsampling factors, the 3-stage encoder output is a
sequence of shape `(b, w/4, out_dim)`: the sequence length equals the input
width divided by 4 and depends only on the input width (not on the batch size
or the stage widths). -/
theorem forwardFeatures_shape (d0 d1 d2 out_dim b h w : ℕ)
    (hw4 : 4 ∣ w) (hw0 : 0 < w) (hh16 : 16 ∣ h) (hh0 : 0 < h) :
    VIPTRNet.forwardFeaturesShape [d0, d1, d2] out_dim b h w = (b, w / 4, out_dim) := by
  show (b,
      conv2dOutDim (conv2dOutDim (conv2dOutDim (conv2dOutDim w 3 2 1) 3 2 1) 3 1 1) 3 1 1,
      out_dim) = (b, w / 4, out_dim)
  simp only [conv2dOutDim, Prod.mk.injEq, true_and, and_true]
  omega

/-- **C4 witness.** A `(1, 3, 32, 128)` input to the 3-stage configuration with
embedding dims `[64, 128, 256]` and output dim 384 yields 32 output positions. -/
theorem forwardFeatures_shape_witness :
    VIPTRNet.forwardFeaturesShape [64, 128, 256] 384 1 32 128 = (1, 128 / 4, 384) :=
  forwardFeatures_shape 64 128 256 384 1 32 128 (by decide) (by decide) (by decide) (by decide)

theorem list_max?_eq_some_iff {α : Type*} [LinearOrder α] {xs : List α} {a : α} :
    xs.max? = some a ↔ a ∈ xs ∧ ∀ b ∈ xs, b ≤ a :=
  haveI : Std.Antisymm (fun x1 x2 : α => x1 ≤ x2) := ⟨fun h1 h2 => le_antisymm h1 h2⟩
  List.max?_eq_some_iff le_refl max_choice (fun _ _ _ => max_le_iff)

theorem list_min?_eq_some_iff {α : Type*} [LinearOrder α] {xs : List α} {a : α} :
    xs.min? = some a ↔ a ∈ xs ∧ ∀ b ∈ xs, a ≤ b :=
  haveI : Std.Antisymm (fun x1 x2 : α => x1 ≤ x2) := ⟨fun h1 h2 => le_antisymm h1 h2⟩
  List.min?_eq_some_iff le_refl min_choice (fun _ _ _ => le_min_iff)

theorem mapM_cons_inv {γ δ : Type*} {f : γ → Option δ} {a : γ} {l : List γ} {ys : List δ}
    (h : (a :: l).mapM f = some ys) :
    ∃ y zs, f a = some y ∧ l.mapM f = some zs ∧ ys = y :: zs := by
  rw [List.mapM_cons] at h
  cases hfa : f a with
  | none => rw [hfa] at h; simp at h
  | some y =>
    rw [hfa] at h
    cases hl : l.mapM f with
    | none => rw [hl] at h; simp at h
    | some zs =>
      rw [hl] at h
      simp at h
      exact ⟨y, zs, rfl, rfl, h.symm⟩

theorem mapM_nil_inv {γ δ : Type*} {f : γ → Option δ} {ys : List δ}
    (h : ([] : List γ).mapM f = some ys) : ys = [] := by
  simp only [List.mapM_nil, Option.pure_def, Option.some.injEq] at h
  exact h.symm

theorem mapM_some_nil_inv {γ δ : Type*} {f : γ → Option δ} {l : List γ}
    (h : l.mapM f = some []) : l = [] := by
  cases l with
  | nil => rfl
  | cons a as =>
    obtain ⟨y, zs, _, _, hcons⟩ := mapM_cons_inv h
    exact absurd hcons (by simp)

theorem mapM_length {γ δ : Type*} {f : γ → Option δ} :
    ∀ {l : List γ} {ys : List δ}, l.mapM f = some ys → ys.length = l.length := by
  intro l
  induction l with
  | nil => intro ys h; rw [mapM_nil_inv h]; rfl
  | cons a as ih =>
    intro ys h
    obtain ⟨y, zs, _, hzs, rfl⟩ := mapM_cons_inv h
    simp [ih hzs]

theorem mapM_forall_isSome {γ δ : Type*} {f : γ → Option δ} :
    ∀ {l : List γ} {ys : List δ}, l.mapM f = some ys → ∀ a ∈ l, (f a).isSome := by
  intro l
  induction l with
  | nil => intro ys _ a ha; exact absurd ha (List.not_mem_nil a)
  | cons b bs ih =>
    intro ys h a ha
    obtain ⟨y, zs, hy, hzs, _⟩ := mapM_cons_inv h
    rcases List.mem_cons.mp ha with rfl | ha2
    · simp [hy]
    · exact ih hzs a ha2

theorem mapM_isSome_of_forall {γ δ : Type*} {f : γ → Option δ} :
    ∀ {l : List γ}, (∀ a ∈ l, (f a).isSome) → ∃ ys, l.mapM f = some ys := by
  intro l
  induction l with
  | nil => exact fun _ => ⟨[], rfl⟩
  | cons a as ih =>
    intro h
    obtain ⟨y, hy⟩ := Option.isSome_iff_exists.mp (h a (List.mem_cons_self a as))
    obtain ⟨ys, hys⟩ := ih fun b hb => h b (List.mem_cons_of_mem a hb)
    exact ⟨y :: ys, by rw [List.mapM_cons, hy, hys]; rfl⟩

theorem mapM_ofFn {γ δ : Type*} {f : γ → Option δ} :
    ∀ {n : ℕ} {g : Fin n → γ} {v : Fin n → δ},
      (∀ i, f (g i) = some (v i)) → (List.ofFn g).mapM f = some (List.ofFn v) := by
  intro n
  induction n with
  | zero => intro g v _; rfl
  | succ n ih =>
    intro g v H
    rw [List.ofFn_succ, List.ofFn_succ, List.mapM_cons, H 0,
      ih fun i => H i.succ]
    rfl

/-- **C2.** For every logits tensor whose per-time-step argmax sequence is
`[blank, a, a, blank, b, b, b, blank]` (blank = class 0, class 1 = 'a',
class 2 = 'b'), CTC best-path decoding returns the two-character word "ab":
consecutive repeats are collapsed, blanks dropped, and the remaining indices
mapped back to vocabulary characters.  For the `viptr` decoder (class `k` read
as `vocab[k - 1]`) the vocabulary realizing this mapping is `"ab"`; for the
`vip` decoder (class `k` read as `vocab[k]`) it is a vocabulary with 'a' at
position 1 and 'b' at position 2. -/
theorem ctc_best_path_collapses_repeats_strips_blanks {α : Type} [LinearOrderedField α]
    (expf : α → α) (logits : List (List (List α)))
    (hp : predsIndices logits = some [[0, 1, 1, 0, 2, 2, 2, 0]]) :
    (ctc_best_path_viptr expf logits ['a', 'b'] 0).map (List.map Prod.fst)
        = some [['a', 'b']] ∧
    (ctc_best_path_vip expf logits ['-', 'a', 'b'] 0).map (List.map Prod.fst)
        = some [['a', 'b']] := by
  -- the batch must consist of a single sample whose rows have the given argmaxes
  obtain ⟨mat, rfl, hmat⟩ :
      ∃ mat, logits = [mat] ∧ mat.mapM argmaxIdx = some [0, 1, 1, 0, 2, 2, 2, 0] := by
    unfold predsIndices at hp
    cases logits with
    | nil =>
      exfalso
      have := mapM_nil_inv hp
      simp at this
    | cons m rest =>
      obtain ⟨y, zs, hy, hzs, hcons⟩ := mapM_cons_inv hp
      injection hcons with h1 h2
      subst h1
      subst h2
      obtain rfl : rest = [] := mapM_some_nil_inv hzs
      exact ⟨m, rfl, hy⟩
  -- the per-sample confidence exists
  obtain ⟨p, hcp⟩ : ∃ p, ctcConfidences expf [mat] = some [p] := by
    have h1 : ∀ r ∈ mat, ((softmaxRow expf r).max?).isSome := by
      intro r hr
      have ha := mapM_forall_isSome hmat r hr
      cases r with
      | nil => simp [argmaxIdx] at ha
      | cons x xs => rfl
    obtain ⟨ms, hms⟩ := mapM_isSome_of_forall h1
    have hlen8 : mat.length = 8 := by
      have := mapM_length hmat
      simpa using this.symm
    have hmslen : ms.length = 8 := (mapM_length hms).trans hlen8
    obtain ⟨q, hq⟩ : ∃ q, ms.min? = some q := by
      cases ms with
      | nil => simp at hmslen
      | cons m0 ms2 => exact ⟨_, rfl⟩
    refine ⟨q, ?_⟩
    unfold ctcConfidences
    rw [List.mapM_cons, hms]
    simp only [Option.bind_eq_bind, Option.some_bind]
    rw [hq]
    rfl
  have hwords_viptr :
      ([[0, 1, 1, 0, 2, 2, 2, 0]] : List (List ℕ)).mapM (fun seq : List ℕ =>
        decode_sequence (((groupbyKeys seq).filter fun k => k ≠ 0).map
          fun k => Int.ofNat k - 1) ['a', 'b']) = some [['a', 'b']] := by decide
  have hwords_vip :
      ([[0, 1, 1, 0, 2, 2, 2, 0]] : List (List ℕ)).mapM (fun seq : List ℕ =>
        decode_sequence (((groupbyKeys seq).filter fun k => k ≠ 0).map
          fun k => Int.ofNat k) ['-', 'a', 'b']) = some [['a', 'b']] := by decide
  constructor
  · unfold ctc_best_path_viptr
    rw [hcp, hp]
    simp only [Option.bind_eq_bind, Option.some_bind]
    rw [hwords_viptr]
    simp only [Option.bind_eq_bind, Option.some_bind, Option.pure_def]
    simp [List.zip]
  · unfold ctc_best_path_vip
    rw [hcp, hp]
    simp only [Option.bind_eq_bind, Option.some_bind]
    rw [hwords_vip]
    simp only [Option.bind_eq_bind, Option.some_bind, Option.pure_def]
    simp [List.zip]

/-- **C2 witness.** Concrete rational logits whose argmax sequence is
`[0, 1, 1, 0, 2, 2, 2, 0]`, instantiated with `expf := id`. -/
theorem ctc_best_path_collapses_repeats_strips_blanks_witness :
    (ctc_best_path_viptr (α := ℚ) id
        [[[3, 0, 0], [0, 3, 0], [0, 3, 0], [3, 0, 0], [0, 0, 3], [0, 0, 3], [0, 0, 3],
          [3, 0, 0]]] ['a', 'b'] 0).map (List.map Prod.fst) = some [['a', 'b']] ∧
    (ctc_best_path_vip (α := ℚ) id
        [[[3, 0, 0], [0, 3, 0], [0, 3, 0], [3, 0, 0], [0, 0, 3], [0, 0, 3], [0, 0, 3],
          [3, 0, 0]]] ['-', 'a', 'b'] 0).map (List.map Prod.fst) = some [['a', 'b']] :=
  ctc_best_path_collapses_repeats_strips_blanks id
    [[[3, 0, 0], [0, 3, 0], [0, 3, 0], [3, 0, 0], [0, 0, 3], [0, 0, 3], [0, 0, 3], [3, 0, 0]]]
    (by decide)

theorem max?_ofFn_eq_sup' {α : Type*} [LinearOrder α] {n : ℕ} (hn : 0 < n) (g : Fin n → α) :
    (List.ofFn g).max?
      = some (Finset.univ.sup' (Finset.univ_nonempty_iff.mpr ⟨⟨0, hn⟩⟩) g) := by
  rw [list_max?_eq_some_iff]
  constructor
  · obtain ⟨i, _, hi⟩ := Finset.exists_mem_eq_sup'
      (Finset.univ_nonempty_iff.mpr (⟨⟨0, hn⟩⟩ : Nonempty (Fin n))) g
    rw [hi]
    exact (List.mem_ofFn g _).mpr ⟨i, rfl⟩
  · intro b hb
    obtain ⟨i, rfl⟩ := (List.mem_ofFn g b).mp hb
    exact Finset.le_sup' g (Finset.mem_univ i)

theorem min?_ofFn_eq_inf' {α : Type*} [LinearOrder α] {n : ℕ} (hn : 0 < n) (g : Fin n → α) :
    (List.ofFn g).min?
      = some (Finset.univ.inf' (Finset.univ_nonempty_iff.mpr ⟨⟨0, hn⟩⟩) g) := by
  rw [list_min?_eq_some_iff]
  constructor
  · obtain ⟨i, _, hi⟩ := Finset.exists_mem_eq_inf'
      (Finset.univ_nonempty_iff.mpr (⟨⟨0, hn⟩⟩ : Nonempty (Fin n))) g
    rw [hi]
    exact (List.mem_ofFn g _).mpr ⟨i, rfl⟩
  · intro b hb
    obtain ⟨i, rfl⟩ := (List.mem_ofFn g b).mp hb
    exact Finset.inf'_le g (Finset.mem_univ i)

theorem softmaxRow_ofFn {α : Type*} [LinearOrderedField α] (expf : α → α) {n : ℕ}
    (r : Fin n → α) :
    softmaxRow expf (List.ofFn r)
      = List.ofFn fun c => expf (r c) / ∑ j, expf (r j) := by
  unfold softmaxRow
  rw [List.map_ofFn, List.map_ofFn, List.sum_ofFn]
  rfl

theorem ctcConfidences_ofFn {α : Type} [LinearOrderedField α] (expf : α → α)
    {B T C : ℕ} (hT : 0 < T) (hC : 0 < C) (f : Fin B → Fin T → Fin C → α) :
    ctcConfidences expf (List.ofFn fun b => List.ofFn fun t => List.ofFn fun c => f b t c)
      = some (List.ofFn fun b => minMaxSoftmax expf hT hC (f b)) := by
  unfold ctcConfidences
  apply mapM_ofFn
  intro b
  have hinner : (List.ofFn fun t => List.ofFn fun c => f b t c).mapM
      (fun row => (softmaxRow expf row).max?)
      = some (List.ofFn fun t =>
          Finset.univ.sup' (Finset.univ_nonempty_iff.mpr ⟨⟨0, hC⟩⟩)
            fun c => expf (f b t c) / ∑ j, expf (f b t j)) := by
    apply mapM_ofFn
    intro t
    rw [softmaxRow_ofFn]
    exact max?_ofFn_eq_sup' hC _
  rw [hinner, Option.some_bind, min?_ofFn_eq_inf' hT]
  rfl

/-- **C6.** The confidence `ctc_best_path` returns for each sample equals the
minimum, over the time-steps, of the maximum softmax probability at that
time-step (stated for any exponential-like map `expf`, hence in particular for
the real exponential used by `F.softmax`). -/
theorem ctc_best_path_confidence_min_max {α : Type} [LinearOrderedField α] (expf : α → α)
    {B T C : ℕ} (hT : 0 < T) (hC : 0 < C) (f : Fin B → Fin T → Fin C → α)
    (vocab : List Char) (blank : ℕ) (res : List (List Char × α))
    (hres : ctc_best_path_viptr expf
        (List.ofFn fun b => List.ofFn fun t => List.ofFn fun c => f b t c) vocab blank
      = some res) (b : Fin B) :
    (res[(b : ℕ)]?).map Prod.snd = some (minMaxSoftmax expf hT hC (f b)) := by
  unfold ctc_best_path_viptr at hres
  rw [ctcConfidences_ofFn expf hT hC f] at hres
  simp only [Option.bind_eq_bind, Option.some_bind, Option.bind_eq_some, Option.pure_def,
    Option.some.injEq] at hres
  obtain ⟨preds, hpreds, words, hwords, hzip⟩ := hres
  have hplen : preds.length = B := (mapM_length hpreds).trans (List.length_ofFn _)
  have hwlen : words.length = B := (mapM_length hwords).trans hplen
  have hblt : (b : ℕ) < words.length := hwlen ▸ b.isLt
  have hblt2 : (b : ℕ) < (List.ofFn fun b => minMaxSoftmax expf hT hC (f b)).length := by
    rw [List.length_ofFn]; exact b.isLt
  have hzlen : (b : ℕ) < (words.zip
      (List.ofFn fun b => minMaxSoftmax expf hT hC (f b))).length := by
    rw [List.length_zip]
    exact lt_min hblt hblt2
  rw [← hzip, List.getElem?_eq_getElem hzlen, List.getElem_zip, Option.map_some']
  simp [List.getElem_ofFn]

/-- **C6 witness.** Concrete instance over `ℚ` with `expf := id`, a single
sample, a single time-step and a single class. -/
theorem ctc_best_path_confidence_min_max_witness :
    (([([], (0 : ℚ))] : List (List Char × ℚ))[((0 : Fin 1) : ℕ)]?).map Prod.snd
      = some (minMaxSoftmax (α := ℚ) id Nat.one_pos Nat.one_pos fun _ _ => 0) :=
  ctc_best_path_confidence_min_max id Nat.one_pos Nat.one_pos
    (fun _ _ _ => (0 : ℚ)) ['a'] 0 [([], 0)]
    (by
      show ctc_best_path_viptr (α := ℚ) id [[[0]]] ['a'] 0 = some [([], 0)]
      simp [ctc_best_path_viptr, ctcConfidences, predsIndices, argmaxIdx, softmaxRow,
        decode_sequence, groupbyKeys, List.mapM, List.mapM.loop, List.max?, List.min?,
        List.findIdx?])
    0

theorem indexOf?_eq_some_of_mem {α : Type*} [BEq α] [LawfulBEq α] {c : α} :
    ∀ {l : List α}, c ∈ l → l.indexOf? c = some (l.indexOf c) := by
  intro l
  induction l with
  | nil => intro h; exact absurd h (List.not_mem_nil c)
  | cons x xs ih =>
    intro h
    rw [List.indexOf?_cons, List.indexOf_cons]
    by_cases hx : x == c
    · rw [if_pos hx, hx, cond_true]
    · rw [if_neg hx, eq_false_of_ne_true hx, cond_false]
      rcases List.mem_cons.mp h with rfl | h2
      · exact absurd (beq_self_eq_true c) hx
      · rw [ih h2]
        rfl

theorem mapM_eq_map {γ δ : Type*} {f : γ → Option δ} {g : γ → δ} :
    ∀ {l : List γ}, (∀ a ∈ l, f a = some (g a)) → l.mapM f = some (l.map g) := by
  intro l
  induction l with
  | nil => intro _; rfl
  | cons a as ih =>
    intro h
    rw [List.mapM_cons, h a (List.mem_cons_self a as),
      ih fun b hb => h b (List.mem_cons_of_mem a hb)]
    rfl

/-- **C7.** For every list of ground-truth strings whose characters all occur in
the vocabulary and whose lengths are at most `max_length`, `build_target`
returns the encoded `(len(gts), max_length)` array in which row `i` holds, at
positions `0 .. len(gts[i]) - 1`, the vocabulary index of the character plus 1
(index 0 reserved for the blank), and 0 everywhere after, together with the
per-string lengths; every row has length exactly `max_length`. -/
theorem build_target_encodes (vocab : List Char) (max_length : ℕ) (gts : List (List Char))
    (hlen : ∀ s ∈ gts, s.length ≤ max_length)
    (hmem : ∀ s ∈ gts, ∀ c ∈ s, c ∈ vocab) :
    build_target vocab max_length gts
      = some (gts.map fun s =>
            (s.map fun c => vocab.indexOf c + 1)
              ++ List.replicate (max_length - s.length) 0,
          gts.map List.length) ∧
    ∀ s ∈ gts,
      ((s.map fun c => vocab.indexOf c + 1)
        ++ List.replicate (max_length - s.length) 0).length = max_length := by
  constructor
  · unfold build_target
    rw [mapM_eq_map]
    · rfl
    · intro s hs
      unfold encodeWord
      rw [mapM_eq_map fun c hc => by
        rw [indexOf?_eq_some_of_mem (hmem s hs c hc)]; rfl]
      simp only [Option.bind_eq_bind, Option.some_bind]
      rw [if_pos (hlen s hs)]
      rfl
  · intro s hs
    rw [List.length_append, List.length_map, List.length_replicate]
    have := hlen s hs
    omega

/-- **C7 witness.** Vocabulary `"abc"`, `max_length = 4`,
ground truths `["ac", "b"]`. -/
theorem build_target_encodes_witness :
    build_target ['a', 'b', 'c'] 4 [['a', 'c'], ['b']]
      = some ([['a', 'c'], ['b']].map fun s =>
            (s.map fun c => (['a', 'b', 'c'] : List Char).indexOf c + 1)
              ++ List.replicate (4 - s.length) 0,
          [['a', 'c'], ['b']].map List.length) ∧
    ∀ s ∈ [['a', 'c'], ['b']],
      ((s.map fun c => (['a', 'b', 'c'] : List Char).indexOf c + 1)
        ++ List.replicate (4 - s.length) 0).length = 4 :=
  build_target_encodes ['a', 'b', 'c'] 4 [['a', 'c'], ['b']] (by decide) (by decide)

/-- **C8 counterexample.** The claim asserts the usage error is raised "at
call time before any computation proceeds"; in both sources the backbone and
head run first (viptr lines 152-157, vip lines 130-143) and only then is the
missing-targets check performed (lines 159-160 resp. 145-146).  Hence, in
training mode with no targets, a failure of that earlier computation (e.g. a
shape error in the feature extractor) preempts the usage error: `forward`
surfaces the backbone's error, not the missing-targets one. -/
theorem forward_backbone_runs_before_target_check :
    VIPTR.forward (α := ℕ) (β := ℕ) (γ := ℕ) true false false false none
        (.error "mat1 and mat2 shapes cannot be multiplied") (fun x => x) (fun x _ => x)
      = .error "mat1 and mat2 shapes cannot be multiplied" ∧
    (Except.error "mat1 and mat2 shapes cannot be multiplied"
        : Except String (VIPTROutput ℕ ℕ ℕ))
      ≠ .error "Need to provide labels during training." := by
  refine ⟨rfl, fun h => ?_⟩
  exact absurd (Except.error.inj h) (by decide)

/-- **C8 (amended).** Whenever the model is in training mode and `forward` is
called without ground-truth targets, the call fails with the usage error
"Need to provide labels during training.", raised after the backbone feature
extraction and head projection have run (here: once `featHead` has produced the
decoded features) but before any output dictionary is built, any decoding is
performed, or any loss is computed. -/
theorem forward_training_without_target_raises {α β γ : Type*}
    (exportable return_model_output return_preds : Bool) (decoded_features : α)
    (postprocess : α → β) (lossOf : α → List (List Char) → γ)
    (training : Bool) (target : Option (List (List Char)))
    (htrain : training = true) (htarget : target = none) :
    VIPTR.forward training exportable return_model_output return_preds target
        (.ok decoded_features) postprocess lossOf
      = .error "Need to provide labels during training." := by
  subst htrain
  subst htarget
  rfl

/-- **C8 witness.** Concrete instance. -/
theorem forward_training_without_target_raises_witness :
    VIPTR.forward (α := ℕ) (β := ℕ) (γ := ℕ) true false false false none (.ok 7)
        (fun x => x) (fun x _ => x)
      = .error "Need to provide labels during training." :=
  forward_training_without_target_raises false false false 7 (fun x => x) (fun x _ => x)
    true none rfl rfl

/-- **C10 counterexample.** As literally quantified over "every combination of
the target argument", the claim fails: with `exportable = true`, in training
mode and with `target = none`, `forward` raises the usage error instead of
returning a dictionary at all. -/
theorem forward_exportable_counterexample :
    VIPTR.forward (α := ℕ) (β := ℕ) (γ := ℕ) true true true true none (.ok 7)
        (fun x => x) (fun x _ => x)
      = .error "Need to provide labels during training." ∧
    ∀ out : VIPTROutput ℕ ℕ ℕ,
      VIPTR.forward (α := ℕ) (β := ℕ) (γ := ℕ) true true true true none (.ok 7)
          (fun x => x) (fun x _ => x) ≠ .ok out := by
  constructor
  · rfl
  · intro out h
    exact absurd h (by simp [VIPTR.forward])

/-- **C10 (amended).** For every input and every combination of the `target`,
`return_model_output` and `return_preds` arguments on which `forward` does not
raise the missing-targets error (i.e. except when training without targets),
a model constructed with `exportable = true` returns a dictionary containing
exactly the single key `logits` holding the raw logits: no loss is computed,
no decoding is performed, and no other key is present. -/
theorem forward_exportable_only_logits {α β γ : Type*}
    (training return_model_output return_preds : Bool) (decoded_features : α)
    (postprocess : α → β) (lossOf : α → List (List Char) → γ)
    (target : Option (List (List Char)))
    (hok : ¬(training = true ∧ target = none)) :
    VIPTR.forward training true return_model_output return_preds target
        (.ok decoded_features) postprocess lossOf
      = .ok { logits := some decoded_features, out_map := none, preds := none,
              loss := none } := by
  rcases target with _ | t
  · have ht : training = false := by
      cases training
      · rfl
      · exact absurd ⟨rfl, rfl⟩ hok
    subst ht
    rfl
  · cases training <;> rfl

/-- **C10 witness.** Concrete instance in eval mode. -/
theorem forward_exportable_only_logits_witness :
    VIPTR.forward (α := ℕ) (β := ℕ) (γ := ℕ) false true true true none (.ok 7)
        (fun x => x) (fun x _ => x)
      = .ok { logits := some 7, out_map := none, preds := none, loss := none } :=
  forward_exportable_only_logits false true true 7 (fun x => x) (fun x _ => x) none
    (by simp)

theorem softmaxP_nonneg {C : ℕ} (row : Fin C → ℝ) (c : Fin C) : 0 ≤ softmaxP row c :=
  div_nonneg (Real.exp_pos _).le (Finset.sum_nonneg fun _ _ => (Real.exp_pos _).le)

theorem sum_softmaxP_le_one {C : ℕ} (row : Fin C → ℝ) :
    ∑ c, softmaxP row c ≤ 1 := by
  rcases Nat.eq_zero_or_pos C with hC | hC
  · subst hC
    simp
  · have hS : 0 < ∑ j, Real.exp (row j) :=
      Finset.sum_pos (fun j _ => Real.exp_pos _)
        (Finset.univ_nonempty_iff.mpr ⟨⟨0, hC⟩⟩)
    unfold softmaxP
    rw [← Finset.sum_div, div_self hS.ne']

theorem pathProb_nonneg (T C : ℕ) (logits : Fin T → Fin C → ℝ) (blank : ℕ)
    (target : List ℕ) : 0 ≤ pathProb T C logits blank target :=
  Finset.sum_nonneg fun _ _ => Finset.prod_nonneg fun t _ => softmaxP_nonneg (logits t) _

theorem pathProb_le_one (T C : ℕ) (logits : Fin T → Fin C → ℝ) (blank : ℕ)
    (target : List ℕ) : pathProb T C logits blank target ≤ 1 := by
  have hsub : pathProb T C logits blank target
      ≤ ∑ π : Fin T → Fin C, ∏ t, softmaxP (logits t) (π t) := by
    apply Finset.sum_le_sum_of_subset_of_nonneg (Finset.filter_subset _ _)
    intro π _ _
    exact Finset.prod_nonneg fun t _ => softmaxP_nonneg (logits t) _
  have htotal : ∑ π : Fin T → Fin C, ∏ t, softmaxP (logits t) (π t)
      = ∏ t, ∑ c, softmaxP (logits t) c := by
    rw [Finset.prod_univ_sum fun _ => (Finset.univ : Finset (Fin C))]
    rw [Fintype.piFinset_univ]
  refine hsub.trans (htotal ▸ Finset.prod_le_one ?_ ?_)
  · intro t _
    exact Finset.sum_nonneg fun c _ => softmaxP_nonneg (logits t) c
  · intro t _
    exact sum_softmaxP_le_one (logits t)

theorem ctcSampleLoss_nonneg (T C : ℕ) (logits : Fin T → Fin C → ℝ) (blank : ℕ)
    (target : List ℕ) (tlen : ℕ) : 0 ≤ ctcSampleLoss T C logits blank target tlen := by
  unfold ctcSampleLoss
  split
  · exact le_refl 0
  · rename_i hne
    have hpos : 0 < pathProb T C logits blank target :=
      lt_of_le_of_ne (pathProb_nonneg T C logits blank target) (Ne.symm hne)
    have hlog : Real.log (pathProb T C logits blank target) ≤ 0 :=
      Real.log_nonpos hpos.le (pathProb_le_one T C logits blank target)
    exact div_nonneg (neg_nonneg.mpr hlog) (Nat.cast_nonneg tlen)

/-- **C9.** `compute_loss` evaluates the CTC loss with the input length equal
to the number of output time-steps identically for every sample and the target
length equal to each sample's label length; any infinite per-sample loss (zero
path probability) contributes zero instead of propagating, and the returned
loss is a finite, non-negative real number. -/
theorem compute_loss_input_lengths_and_finite (B T C : ℕ)
    (model_output : Fin B → Fin T → Fin C → ℝ) (gt : Fin B → List ℕ)
    (seq_len : Fin B → ℕ) :
    (∀ b, inputLengths B T b = T) ∧
    (∀ b, pathProb T C (model_output b) 0 ((gt b).take (seq_len b)) = 0 →
      ctcSampleLoss T C (model_output b) 0 ((gt b).take (seq_len b)) (seq_len b) = 0) ∧
    0 ≤ compute_loss B T C model_output gt seq_len := by
  refine ⟨fun _ => rfl, fun b h0 => ?_, ?_⟩
  · unfold ctcSampleLoss
    rw [if_pos h0]
  · unfold compute_loss
    apply div_nonneg _ (Nat.cast_nonneg B)
    exact Finset.sum_nonneg fun b _ => ctcSampleLoss_nonneg T C (model_output b) 0 _ _

end DocTR

